import Mathlib

/-!
Verification of the `remarkLinkCitations` markdown transform
(`src/lib/remark-link-citations.ts`) and its collaborator
`extractReferences` (`src/frontend/src/components/results.tsx`).

Strings are modelled as `List Char`; the JavaScript regular expression
`/\[(\d+)\]/g` is embedded as an explicit leftmost, greedy, non-overlapping
scanner (`matchAt` / `findCitation`).  The mdast node taxonomy is embedded
as the inductive `MdNode` and the `unist-util-visit` traversal with in-place
splicing as both a denotational recursion (`transformNode` / `transformList`)
and an operational index-driven loop (`visitLoop`).
-/

namespace CitationLinker

/-- JavaScript `\d` — the ASCII decimal digits `0`–`9`
(`Char.isDigit` tests exactly that range). -/
def isDig (c : Char) : Bool := c.isDigit

/-- Attempt to match `\[(\d+)\]` at the very start of `s`:
an opening bracket, a maximal (greedy) non-empty run of digits, a closing
bracket.  Returns the captured digit run.  Greediness is exact here: a
shorter digit run followed by `]` is impossible, since the dropped
character would have to be both a digit and `]`. -/
def matchAt (s : List Char) : Option (List Char) :=
  match s with
  | [] => none
  | c :: rest =>
    if c = '[' then
      if (rest.takeWhile isDig).isEmpty then none
      else
        match rest.drop (rest.takeWhile isDig).length with
        | ']' :: _ => some (rest.takeWhile isDig)
        | _ => none
    else none

/-- The leftmost match of `\[(\d+)\]` in `s`: its start offset and its
captured digit run.  This is what one step of `regex.exec` computes. -/
def findCitation : List Char → Option (Nat × List Char)
  | [] => none
  | c :: rest =>
    match matchAt (c :: rest) with
    | some ds => some (0, ds)
    | none =>
      match findCitation rest with
      | some (i, ds) => some (i + 1, ds)
      | none => none

/-- Spec-level predicate: `s` contains a bracket citation, i.e. a substring
`[` ++ digits ++ `]` with a non-empty all-digit run. -/
def HasCite (s : List Char) : Prop :=
  ∃ a ds b, s = a ++ '[' :: (ds ++ ']' :: b) ∧ ds ≠ [] ∧ ds.all isDig = true

/-! ### Basic list scanning facts -/

theorem drop_takeWhile_length (p : Char → Bool) (l : List Char) :
    l.drop (l.takeWhile p).length = l.dropWhile p := by
  induction l with
  | nil => rfl
  | cons c rest ih =>
    by_cases hc : p c
    · simpa [List.takeWhile_cons, List.dropWhile_cons, hc] using ih
    · simp [List.takeWhile_cons, List.dropWhile_cons, hc]

theorem takeWhile_all (p : Char → Bool) (l : List Char) :
    (l.takeWhile p).all p = true := by
  rw [List.all_eq_true]
  intro x hx
  exact List.mem_takeWhile_imp hx

theorem takeWhile_append_not {p : Char → Bool} {l : List Char} (hl : l.all p = true)
    {c : Char} (hc : p c = false) (t : List Char) :
    (l ++ c :: t).takeWhile p = l := by
  induction l with
  | nil => simp [List.takeWhile_cons, hc]
  | cons x xs ih =>
    rw [List.all_cons, Bool.and_eq_true] at hl
    simp [List.takeWhile_cons, hl.1, ih hl.2]

theorem dropWhile_append_not {p : Char → Bool} {l : List Char} (hl : l.all p = true)
    {c : Char} (hc : p c = false) (t : List Char) :
    (l ++ c :: t).dropWhile p = c :: t := by
  induction l with
  | nil => simp [List.dropWhile_cons, hc]
  | cons x xs ih =>
    rw [List.all_cons, Bool.and_eq_true] at hl
    simp [List.dropWhile_cons, hl.1, ih hl.2]

/-- Soundness of `matchAt`: a successful match at the head of `s`
decomposes `s` as `[` ++ digits ++ `]` ++ remainder. -/
theorem matchAt_sound {s ds : List Char} (h : matchAt s = some ds) :
    ∃ b, s = '[' :: (ds ++ ']' :: b) ∧ ds ≠ [] ∧ ds.all isDig = true := by
  unfold matchAt at h
  split at h
  · exact absurd h (by simp)
  · next c rest =>
    split at h
    · next hc =>
      subst hc
      split at h
      · exact absurd h (by simp)
      · next hne =>
        split at h
        · next b heq =>
          rw [Option.some.injEq] at h
          subst h
          refine ⟨b, ?_, by simpa [List.isEmpty_iff] using hne, takeWhile_all _ _⟩
          have h1 : rest.takeWhile isDig ++ rest.drop (rest.takeWhile isDig).length = rest := by
            rw [drop_takeWhile_length, List.takeWhile_append_dropWhile]
          rw [heq] at h1
          rw [h1]
        · exact absurd h (by simp)
    · exact absurd h (by simp)

/-- Completeness of `matchAt`: if `s` literally starts with `[` ++ digits
++ `]`, the matcher succeeds and captures exactly that digit run
(greediness cannot overshoot past the `]`). -/
theorem matchAt_complete {ds b : List Char} (hne : ds ≠ [])
    (hdig : ds.all isDig = true) :
    matchAt ('[' :: (ds ++ ']' :: b)) = some ds := by
  have hcb : isDig ']' = false := by decide
  have htw : (ds ++ ']' :: b).takeWhile isDig = ds := takeWhile_append_not hdig hcb b
  have hdw : (ds ++ ']' :: b).drop ((ds ++ ']' :: b).takeWhile isDig).length = ']' :: b := by
    rw [drop_takeWhile_length, dropWhile_append_not hdig hcb]
  have hred : matchAt ('[' :: (ds ++ ']' :: b)) =
      if ((ds ++ ']' :: b).takeWhile isDig).isEmpty then none
      else
        match (ds ++ ']' :: b).drop ((ds ++ ']' :: b).takeWhile isDig).length with
        | ']' :: _ => some ((ds ++ ']' :: b).takeWhile isDig)
        | _ => none := rfl
  rw [htw] at hdw
  rw [hred, htw, hdw]
  simp [List.isEmpty_iff, hne]

/-- Soundness of `findCitation`: it returns the leftmost match — a match at the reported
offset, and no match at any earlier offset. -/
theorem findCitation_sound {s : List Char} {i : Nat} {ds : List Char}
    (h : findCitation s = some (i, ds)) :
    matchAt (s.drop i) = some ds ∧ ∀ j, j < i → matchAt (s.drop j) = none := by
  induction s generalizing i with
  | nil => simp [findCitation] at h
  | cons c rest ih =>
    rw [findCitation] at h
    split at h
    · next ds' hm =>
      rw [Option.some.injEq, Prod.mk.injEq] at h
      obtain ⟨hi, hds⟩ := h
      subst hi; subst hds
      exact ⟨hm, fun j hj => absurd hj (by omega)⟩
    · next hm =>
      split at h
      · next i' ds' hrec =>
        rw [Option.some.injEq, Prod.mk.injEq] at h
        obtain ⟨hi, hds⟩ := h
        subst hi; subst hds
        obtain ⟨h1, h2⟩ := ih hrec
        refine ⟨by simpa using h1, ?_⟩
        intro j hj
        cases j with
        | zero => simpa using hm
        | succ j' => simpa using h2 j' (by omega)
      · exact absurd h (by simp)

/-- If `findCitation` finds nothing, there is no match at any offset. -/
theorem findCitation_none {s : List Char} (h : findCitation s = none) :
    ∀ j, matchAt (s.drop j) = none := by
  induction s with
  | nil => intro j; simp [matchAt]
  | cons c rest ih =>
    rw [findCitation] at h
    split at h
    · exact absurd h (by simp)
    · next hm =>
      split at h
      · exact absurd h (by simp)
      · next hrec =>
        intro j
        cases j with
        | zero => simpa using hm
        | succ j' => simpa using ih hrec j'

/-- Containment of a citation holds exactly when some offset carries a match. -/
theorem hasCite_iff_matchAt {s : List Char} :
    HasCite s ↔ ∃ j ds, matchAt (s.drop j) = some ds := by
  constructor
  · rintro ⟨a, ds, b, rfl, hne, hdig⟩
    refine ⟨a.length, ds, ?_⟩
    rw [List.drop_left]
    exact matchAt_complete hne hdig
  · rintro ⟨j, ds, hm⟩
    obtain ⟨b, hb, hne, hdig⟩ := matchAt_sound hm
    exact ⟨s.take j, ds, b, by rw [← hb, List.take_append_drop], hne, hdig⟩

/-- The scanner is a decision procedure for `HasCite`. -/
theorem hasCite_iff_findCitation {s : List Char} :
    HasCite s ↔ (findCitation s).isSome := by
  constructor
  · intro hc
    match hf : findCitation s with
    | some _ => rfl
    | none =>
      obtain ⟨j, ds, hm⟩ := hasCite_iff_matchAt.mp hc
      rw [findCitation_none hf j] at hm
      exact absurd hm (by simp)
  · intro hs
    match hf : findCitation s with
    | some (i, ds) =>
      obtain ⟨h1, _⟩ := findCitation_sound hf
      exact hasCite_iff_matchAt.mpr ⟨i, ds, h1⟩
    | none => rw [hf] at hs; simp at hs

/-- Full decomposition produced by a successful scan: the string splits as
prefix ++ `[` ++ digits ++ `]` ++ remainder, the digit run is non-empty and
all digits, and the match fits inside the string. -/
theorem findCitation_spec {s : List Char} {i : Nat} {ds : List Char}
    (h : findCitation s = some (i, ds)) :
    s = s.take i ++ '[' :: (ds ++ ']' :: s.drop (i + ds.length + 2)) ∧
    ds ≠ [] ∧ ds.all isDig = true ∧ (s.take i).length = i ∧
    i + ds.length + 2 ≤ s.length := by
  obtain ⟨h1, _⟩ := findCitation_sound h
  obtain ⟨b, hb, hne, hdig⟩ := matchAt_sound h1
  have hlt : i < s.length := by
    by_contra hge
    rw [List.drop_eq_nil_of_le (by omega)] at hb
    exact absurd hb (by simp)
  have hdl : (s.drop i).length = ds.length + 2 + b.length := by
    rw [hb]; simp; omega
  have hlen : i + ds.length + 2 + b.length = s.length := by
    have := List.length_drop i s
    omega
  have hbrest : s.drop (i + ds.length + 2) = b := by
    have h2 : s.drop (i + ds.length + 2) = (s.drop i).drop (ds.length + 2) := by
      rw [List.drop_drop]; ring_nf
    rw [h2, hb]
    have h3 : '[' :: (ds ++ ']' :: b) = ('[' :: (ds ++ [']'])) ++ b := by simp
    rw [h3]
    have h4 : ('[' :: (ds ++ [']'])).length = ds.length + 2 := by simp
    rw [← h4, List.drop_left]
  refine ⟨?_, hne, hdig, ?_, by omega⟩
  · rw [hbrest, ← hb, List.take_append_drop]
  · rw [List.length_take]; omega

/-! ### The mdast node model -/

/-- An mdast node as seen by the plugin: a text leaf with a string value, a
link with a url and children, or any other node kind (paragraph, emphasis,
heading, root, ...) which the transform treats as an opaque container. -/
inductive MdNode : Type
  | text : List Char → MdNode
  | link : List Char → List MdNode → MdNode
  | other : String → List MdNode → MdNode
deriving Repr

/-- The link target `#ref-<digits>` (template literal at line 42 of the
plugin), digits verbatim. -/
def refUrl (ds : List Char) : List Char := '#' :: 'r' :: 'e' :: 'f' :: '-' :: ds

/-- The synthesized link node for one citation match: url `#ref-<digits>`,
single text child holding the full matched substring `[<digits>]`. -/
def citeNode (ds : List Char) : MdNode :=
  .link (refUrl ds) [.text ('[' :: (ds ++ [']']))]

/-- The `while ((match = regex.exec(...)))` loop of the plugin, plus the
trailing-text push after the loop: gap text before a match is emitted only
when non-empty (`matchStartIndex > lastIndex`), each match becomes a
`citeNode`, and a final non-empty remainder becomes a trailing text node. -/
def buildNodes (s : List Char) : List MdNode :=
  match h : findCitation s with
  | none => if s.isEmpty then [] else [MdNode.text s]
  | some (i, ds) =>
    (if i = 0 then [] else [MdNode.text (s.take i)]) ++
      citeNode ds :: buildNodes (s.drop (i + ds.length + 2))
termination_by s.length
decreasing_by
  obtain ⟨_, hne, _, _, hle⟩ := findCitation_spec h
  have : ds.length ≠ 0 := fun hz => hne (List.eq_nil_of_length_eq_zero hz)
  simp only [List.length_drop]
  omega

/-- What the plugin does to one text value: `none` when the regex loop never
fires (`createdNodes.length === 0` — node left untouched), otherwise the
replacement sequence. -/
def transformValue (s : List Char) : Option (List MdNode) :=
  match findCitation s with
  | none => none
  | some _ => some (buildNodes s)

/-- The list of (gap, digits) pieces plus trailing remainder of the scan,
in left-to-right match order. -/
def citeScan (s : List Char) : List (List Char × List Char) × List Char :=
  match h : findCitation s with
  | none => ([], s)
  | some (i, ds) =>
    ((s.take i, ds) :: (citeScan (s.drop (i + ds.length + 2))).1,
      (citeScan (s.drop (i + ds.length + 2))).2)
termination_by s.length
decreasing_by
  all_goals
    obtain ⟨_, hne, _, _, hle⟩ := findCitation_spec h
    have : ds.length ≠ 0 := fun hz => hne (List.eq_nil_of_length_eq_zero hz)
    simp only [List.length_drop]
    omega

/-! ### The traversal (denotational form)

`unist-util-visit` walks the tree preorder; the visitor fires on `text`
nodes only.  A text node whose parent is a link returns `SKIP` unchanged;
any other text node with at least one match is replaced in its parent's
child array by its `buildNodes` sequence, and the visitor returns
`index + createdNodes.length` so traversal resumes after the inserted
nodes.  Containers are recursed into, links passing `inLink := true` to
their direct children only. -/

mutual

/-- Transform a single child whose parent is a link iff `inLink`; the result
is the list of nodes that replace it in the parent's child sequence. -/
def transformNode (inLink : Bool) : MdNode → List MdNode
  | .text v =>
    if inLink then [.text v]
    else
      match transformValue v with
      | none => [.text v]
      | some ns => ns
  | .link u cs => [.link u (transformList true cs)]
  | .other k cs => [.other k (transformList false cs)]

/-- Transform every child of a parent (link iff `inLink`) left to right. -/
def transformList (inLink : Bool) : List MdNode → List MdNode
  | [] => []
  | c :: rest => transformNode inLink c ++ transformList inLink rest

end

/-- The whole plugin applied to a tree.  The root is visited with no parent,
so a bare text root is skipped by the guard; containers have their children
transformed. -/
def transformTree : MdNode → MdNode
  | .text v => .text v
  | .link u cs => .link u (transformList true cs)
  | .other k cs => .other k (transformList false cs)

mutual

/-- Recursive text content of a node (link children included). -/
def textContent : MdNode → List Char
  | .text v => v
  | .link _ cs => textContentList cs
  | .other _ cs => textContentList cs

/-- Concatenated text content of a node list. -/
def textContentList : List MdNode → List Char
  | [] => []
  | c :: rest => textContent c ++ textContentList rest

end

/-! ### Unconditional equation lemmas (the well-founded definitions do not
reduce definitionally, so we expose their branches as rewrite rules). -/

theorem buildNodes_none {s : List Char} (h : findCitation s = none) :
    buildNodes s = if s.isEmpty then [] else [MdNode.text s] := by
  rw [buildNodes, h]

theorem buildNodes_some {s : List Char} {i : Nat} {ds : List Char}
    (h : findCitation s = some (i, ds)) :
    buildNodes s = (if i = 0 then [] else [MdNode.text (s.take i)]) ++
      citeNode ds :: buildNodes (s.drop (i + ds.length + 2)) := by
  rw [buildNodes, h]

theorem transformValue_none {s : List Char} (h : findCitation s = none) :
    transformValue s = none := by
  rw [transformValue, h]

theorem transformValue_some {s : List Char} {i : Nat} {ds : List Char}
    (h : findCitation s = some (i, ds)) :
    transformValue s = some (buildNodes s) := by
  rw [transformValue, h]

theorem citeScan_none {s : List Char} (h : findCitation s = none) :
    citeScan s = ([], s) := by
  rw [citeScan, h]

theorem citeScan_some {s : List Char} {i : Nat} {ds : List Char}
    (h : findCitation s = some (i, ds)) :
    citeScan s = ((s.take i, ds) :: (citeScan (s.drop (i + ds.length + 2))).1,
      (citeScan (s.drop (i + ds.length + 2))).2) := by
  rw [citeScan, h]

theorem transformNode_text_inLink (v : List Char) :
    transformNode true (.text v) = [.text v] := by
  rw [transformNode]; simp

theorem transformNode_text_none {v : List Char} (h : transformValue v = none) :
    ∀ b, transformNode b (.text v) = [.text v] := by
  intro b
  cases b
  · rw [transformNode, h]; simp
  · rw [transformNode]; simp

theorem transformNode_text_some {v : List Char} {ns : List MdNode}
    (h : transformValue v = some ns) :
    transformNode false (.text v) = ns := by
  rw [transformNode, h]; simp

theorem transformNode_link (b : Bool) (u : List Char) (cs : List MdNode) :
    transformNode b (.link u cs) = [.link u (transformList true cs)] := by
  rw [transformNode]

theorem transformNode_other (b : Bool) (k : String) (cs : List MdNode) :
    transformNode b (.other k cs) = [.other k (transformList false cs)] := by
  rw [transformNode]

theorem transformList_nil (b : Bool) : transformList b [] = [] := by
  rw [transformList]

theorem transformList_cons (b : Bool) (c : MdNode) (rest : List MdNode) :
    transformList b (c :: rest) = transformNode b c ++ transformList b rest := by
  rw [transformList]

theorem transformList_append (b : Bool) (xs ys : List MdNode) :
    transformList b (xs ++ ys) = transformList b xs ++ transformList b ys := by
  induction xs with
  | nil => rw [transformList_nil]; simp
  | cons c rest ih =>
    rw [List.cons_append, transformList_cons, transformList_cons, ih, List.append_assoc]

/-- Induction principle following the scanner's recursion: a property holds
of every string if it holds when there is no match and is preserved by
stripping the leading gap-plus-match. -/
theorem scanInduction (P : List Char → Prop)
    (hnone : ∀ s, findCitation s = none → P s)
    (hsome : ∀ s i ds, findCitation s = some (i, ds) →
      P (s.drop (i + ds.length + 2)) → P s) :
    ∀ s, P s := by
  have key : ∀ n s, s.length ≤ n → P s := by
    intro n
    induction n with
    | zero =>
      intro s hs
      have hz : s = [] := List.eq_nil_of_length_eq_zero (by omega)
      subst hz
      exact hnone [] rfl
    | succ n ih =>
      intro s hs
      match hf : findCitation s with
      | none => exact hnone s hf
      | some (i, ds) =>
        obtain ⟨_, hne, _, _, hle⟩ := findCitation_spec hf
        have hd : 1 ≤ ds.length := List.length_pos.mpr hne
        exact hsome s i ds hf (ih _ (by simp only [List.length_drop]; omega))
  exact fun s => key s.length s le_rfl

/-- The gap before the leftmost match contains no citation. -/
theorem not_hasCite_take {s : List Char} {i : Nat} {ds : List Char}
    (h : findCitation s = some (i, ds)) : ¬ HasCite (s.take i) := by
  obtain ⟨_, hlt⟩ := findCitation_sound h
  obtain ⟨_, _, _, hlen, _⟩ := findCitation_spec h
  rintro ⟨a, d, b, hdec, hdne, hddig⟩
  have hdl : 1 ≤ d.length := List.length_pos.mpr hdne
  have hai : a.length < i := by
    have hc := congrArg List.length hdec
    simp only [List.length_append, List.length_cons] at hc
    omega
  have hsplit : s = a ++ ('[' :: (d ++ ']' :: (b ++ s.drop i))) := by
    conv_lhs => rw [← List.take_append_drop i s]
    rw [hdec]
    simp
  have hma : matchAt (s.drop a.length) = some d := by
    conv_lhs => rw [hsplit, List.drop_left]
    exact matchAt_complete hdne hddig
  rw [hlt a.length hai] at hma
  exact absurd hma (by simp)

/-- Scanner output is faithful: the pieces reconstruct the input, every
captured run is a non-empty digit run, and no gap (nor the trailing
remainder) contains a further citation. -/
theorem citeScan_spec (s : List Char) :
    s = ((citeScan s).1.map (fun p => p.1 ++ '[' :: (p.2 ++ [']']))).flatten ++
      (citeScan s).2 ∧
    (∀ p ∈ (citeScan s).1, p.2 ≠ [] ∧ p.2.all isDig = true ∧ ¬ HasCite p.1) ∧
    ¬ HasCite (citeScan s).2 := by
  induction s using scanInduction with
  | hnone s hf =>
    rw [citeScan_none hf]
    refine ⟨by simp, by simp, ?_⟩
    rw [hasCite_iff_findCitation, hf]
    simp
  | hsome s i ds hf ih =>
    obtain ⟨heq, hne, hdig, hlen, hle⟩ := findCitation_spec hf
    obtain ⟨ih1, ih2, ih3⟩ := ih
    rw [citeScan_some hf]
    refine ⟨?_, ?_, ih3⟩
    · simp only [List.map_cons, List.flatten_cons, List.append_assoc]
      conv_lhs => rw [heq]
      rw [← ih1]
      simp
    · intro p hp
      rcases List.mem_cons.mp hp with hp1 | hp2
      · subst hp1
        exact ⟨hne, hdig, not_hasCite_take hf⟩
      · exact ih2 p hp2

theorem textContent_text (v : List Char) : textContent (.text v) = v := by
  rw [textContent]

theorem textContent_link (u : List Char) (cs : List MdNode) :
    textContent (.link u cs) = textContentList cs := by
  rw [textContent]

theorem textContent_other (k : String) (cs : List MdNode) :
    textContent (.other k cs) = textContentList cs := by
  rw [textContent]

theorem textContentList_nil : textContentList [] = [] := by
  rw [textContentList]

theorem textContentList_cons (c : MdNode) (rest : List MdNode) :
    textContentList (c :: rest) = textContent c ++ textContentList rest := by
  rw [textContentList]

theorem textContentList_append (xs ys : List MdNode) :
    textContentList (xs ++ ys) = textContentList xs ++ textContentList ys := by
  induction xs with
  | nil => rw [textContentList_nil]; simp
  | cons c rest ih =>
    rw [List.cons_append, textContentList_cons, textContentList_cons, ih,
      List.append_assoc]

/-- Round trip: the replacement sequence built for a string carries exactly
that string as its recursive text content. -/
theorem textContent_buildNodes (s : List Char) :
    textContentList (buildNodes s) = s := by
  induction s using scanInduction with
  | hnone s hf =>
    rw [buildNodes_none hf]
    by_cases hs : s.isEmpty
    · rw [if_pos hs, textContentList_nil]
      rw [List.isEmpty_iff] at hs
      exact hs.symm
    · rw [if_neg hs, textContentList_cons, textContent_text, textContentList_nil]
      simp
  | hsome s i ds hf ih =>
    obtain ⟨heq, hne, hdig, hlen, hle⟩ := findCitation_spec hf
    rw [buildNodes_some hf, textContentList_append, textContentList_cons]
    rw [citeNode, textContent_link, textContentList_cons, textContent_text,
      textContentList_nil, ih]
    by_cases hi : i = 0
    · subst hi
      rw [if_pos rfl, textContentList_nil]
      conv_rhs => rw [heq]
      simp
    · rw [if_neg hi, textContentList_cons, textContent_text, textContentList_nil]
      conv_rhs => rw [heq]
      simp

theorem transformValue_some_eq {v : List Char} {ns : List MdNode}
    (h : transformValue v = some ns) : ns = buildNodes v := by
  rw [transformValue] at h
  split at h
  · exact absurd h (by simp)
  · exact (Option.some.inj h).symm

/-- The replacement sequence is a fixed point of the transform: its text
fragments contain no further citation and its link children are exempt. -/
theorem transformList_buildNodes (b : Bool) (s : List Char) :
    transformList b (buildNodes s) = buildNodes s := by
  induction s using scanInduction with
  | hnone s hf =>
    rw [buildNodes_none hf]
    by_cases hs : s.isEmpty
    · rw [if_pos hs, transformList_nil]
    · rw [if_neg hs, transformList_cons, transformList_nil,
        transformNode_text_none (transformValue_none hf) b]
      simp
  | hsome s i ds hf ih =>
    rw [buildNodes_some hf, transformList_append, transformList_cons]
    have hgap : transformList b (if i = 0 then [] else [MdNode.text (s.take i)]) =
        (if i = 0 then [] else [MdNode.text (s.take i)]) := by
      by_cases hi : i = 0
      · rw [if_pos hi, transformList_nil]
      · rw [if_neg hi, transformList_cons, transformList_nil]
        have hg : findCitation (s.take i) = none := by
          have hh := not_hasCite_take hf
          rw [hasCite_iff_findCitation] at hh
          exact Option.not_isSome_iff_eq_none.mp hh
        rw [transformNode_text_none (transformValue_none hg) b]
        simp
    rw [hgap, ih, citeNode, transformNode_link, transformList_cons, transformList_nil,
      transformNode_text_inLink]
    simp [citeNode]

theorem transform_idem_aux :
    ∀ n : Nat, ∀ cs : List MdNode, sizeOf cs ≤ n →
      ∀ b, transformList b (transformList b cs) = transformList b cs := by
  intro n
  induction n with
  | zero =>
    intro cs h b
    cases cs <;> simp at h
  | succ n ih =>
    intro cs hcs b
    match cs with
    | [] => rw [transformList_nil, transformList_nil]
    | c :: rest =>
      have hsz : sizeOf (c :: rest) = 1 + sizeOf c + sizeOf rest := by simp
      have hc1 : 1 ≤ sizeOf c := by
        cases c <;> simp <;> omega
      rw [transformList_cons, transformList_append]
      have hrest : transformList b (transformList b rest) = transformList b rest :=
        ih rest (by omega) b
      rw [hrest]
      congr 1
      match c with
      | .text v =>
        cases b
        · match hv : transformValue v with
          | none =>
            rw [transformNode_text_none hv false, transformList_cons, transformList_nil,
              transformNode_text_none hv false]
            simp
          | some ns =>
            rw [transformNode_text_some hv, transformValue_some_eq hv]
            exact transformList_buildNodes false v
        · rw [transformNode_text_inLink, transformList_cons, transformList_nil,
            transformNode_text_inLink]
          simp
      | .link u cs' =>
        rw [transformNode_link, transformList_cons, transformList_nil,
          transformNode_link]
        have : transformList true (transformList true cs') = transformList true cs' := by
          apply ih cs' ?_ true
          have : sizeOf (MdNode.link u cs') = 1 + sizeOf u + sizeOf cs' := by simp
          have hu : 1 ≤ sizeOf u := by cases u <;> simp <;> omega
          omega
        rw [this]
        simp
      | .other k cs' =>
        rw [transformNode_other, transformList_cons, transformList_nil,
          transformNode_other]
        have : transformList false (transformList false cs') = transformList false cs' := by
          apply ih cs' ?_ false
          have : sizeOf (MdNode.other k cs') = 1 + sizeOf k + sizeOf cs' := by simp
          have hk : 1 ≤ sizeOf k := by
            cases k <;> simp <;> omega
          omega
        rw [this]
        simp

/-- Idempotence at the child-list level. -/
theorem transformList_idem (b : Bool) (cs : List MdNode) :
    transformList b (transformList b cs) = transformList b cs :=
  transform_idem_aux (sizeOf cs) cs le_rfl b

/-! ### The traversal, operational form

`visit` iterates an index over a parent's live child array.  The visitor's
return value drives the cursor: `SKIP` or `undefined` advance by one;
a returned number (`index + createdNodes.length` after the splice) moves the
cursor past the inserted nodes.  We model the loop exactly: the child array
is mutated by `take i ++ created ++ drop (i+1)` (the splice at line 62) and
the cursor jumps to `i + created.length` (line 67).  The second component is
the trace of text-node values the visitor is invoked on, in visit order. -/

theorem drop_succ_eq_tail {α : Type} (cs : List α) (i : Nat) :
    cs.drop (i + 1) = (cs.drop i).drop 1 := by
  rw [List.drop_drop, Nat.add_comm]

theorem lt_length_of_drop_cons {α : Type} {cs : List α} {i : Nat} {c : α} {t : List α}
    (h : cs.drop i = c :: t) : i < cs.length := by
  by_contra hge
  rw [List.drop_eq_nil_of_le (by omega)] at h
  exact absurd h (by simp)

theorem drop_splice {α : Type} {cs : List α} {i : Nat} {c : α} {t : List α}
    (h : cs.drop i = c :: t) (ns : List α) :
    (cs.take i ++ ns ++ cs.drop (i + 1)).drop (i + ns.length) = t := by
  have hi : i < cs.length := lt_length_of_drop_cons h
  have hlt : (cs.take i ++ ns).length = i + ns.length := by
    simp [List.length_take]
    omega
  rw [List.drop_left' hlt, drop_succ_eq_tail, h]
  rfl

theorem drop_set_succ {α : Type} (cs : List α) (i : Nat) (x : α) :
    (cs.set i x).drop (i + 1) = cs.drop (i + 1) :=
  List.drop_set_of_lt x cs (Nat.lt_succ_self i)

theorem set_append_cons {α : Type} (pre : List α) (c x : α) (rest : List α) :
    (pre ++ c :: rest).set pre.length x = pre ++ x :: rest := by
  induction pre with
  | nil => rfl
  | cons p ps ih => simpa using ih

/-- One level of the `visit` loop over the live child array `cs` starting at
cursor `i`, with `b` true iff the parent is a link node.  Containers are
entered (their whole subtree is processed before the cursor advances);
a matched text node is spliced out and the cursor jumps past the
replacement.  Returns the final child array and the trace of visited
text-node values. -/
def visitChildren (b : Bool) (cs : List MdNode) (i : Nat) :
    List MdNode × List (List Char) :=
  match h : cs.drop i with
  | [] => (cs, [])
  | .text v :: _ =>
    if b then
      ((visitChildren b cs (i + 1)).1, v :: (visitChildren b cs (i + 1)).2)
    else
      match transformValue v with
      | none => ((visitChildren b cs (i + 1)).1, v :: (visitChildren b cs (i + 1)).2)
      | some ns =>
        ((visitChildren b (cs.take i ++ ns ++ cs.drop (i + 1)) (i + ns.length)).1,
          v :: (visitChildren b (cs.take i ++ ns ++ cs.drop (i + 1)) (i + ns.length)).2)
  | .link u sub :: _ =>
    ((visitChildren b (cs.set i (.link u (visitChildren true sub 0).1)) (i + 1)).1,
      (visitChildren true sub 0).2 ++
        (visitChildren b (cs.set i (.link u (visitChildren true sub 0).1)) (i + 1)).2)
  | .other k sub :: _ =>
    ((visitChildren b (cs.set i (.other k (visitChildren false sub 0).1)) (i + 1)).1,
      (visitChildren false sub 0).2 ++
        (visitChildren b (cs.set i (.other k (visitChildren false sub 0).1)) (i + 1)).2)
termination_by sizeOf (cs.drop i)
decreasing_by
  all_goals first
    | (rw [drop_splice h ns, h]; simp only [List.cons.sizeOf_spec]; omega)
    | (rw [drop_set_succ, drop_succ_eq_tail, h]
       simp only [List.drop_succ_cons, List.drop_zero, List.cons.sizeOf_spec]
       omega)
    | (rw [drop_succ_eq_tail, h]
       simp only [List.drop_succ_cons, List.drop_zero, List.cons.sizeOf_spec]
       omega)
    | (rw [h]; simp; omega)
    | (rw [h]; simp)

mutual

/-- All text-node values in a subtree, in preorder (visit order). -/
def nodeTexts : MdNode → List (List Char)
  | .text v => [v]
  | .link _ cs => listTexts cs
  | .other _ cs => listTexts cs

/-- All text-node values under a child list, in preorder. -/
def listTexts : List MdNode → List (List Char)
  | [] => []
  | c :: rest => nodeTexts c ++ listTexts rest

end

theorem listTexts_nil : listTexts [] = [] := by rw [listTexts]

theorem listTexts_cons (c : MdNode) (rest : List MdNode) :
    listTexts (c :: rest) = nodeTexts c ++ listTexts rest := by rw [listTexts]

theorem nodeTexts_text (v : List Char) : nodeTexts (.text v) = [v] := by rw [nodeTexts]

theorem nodeTexts_link (u : List Char) (cs : List MdNode) :
    nodeTexts (.link u cs) = listTexts cs := by rw [nodeTexts]

theorem nodeTexts_other (k : String) (cs : List MdNode) :
    nodeTexts (.other k cs) = listTexts cs := by rw [nodeTexts]

/-- The operational visit loop computes the denotational transform, and its
visit trace is exactly the preorder list of the original tree's text-node
values — each original text node is visited once, inserted nodes never. -/
theorem visitChildren_spec :
    ∀ n : Nat, ∀ rest : List MdNode, sizeOf rest ≤ n → ∀ b (pre : List MdNode),
      visitChildren b (pre ++ rest) pre.length =
        (pre ++ transformList b rest, listTexts rest) := by
  intro n
  induction n with
  | zero =>
    intro rest h b pre
    cases rest <;> simp at h
  | succ n ih =>
    intro rest hsz b pre
    have hd : (pre ++ rest).drop pre.length = rest := List.drop_left pre rest
    rw [visitChildren]
    split
    · next heq =>
      rw [hd] at heq
      subst heq
      rw [transformList_nil, listTexts_nil]
    · next v t heq =>
      rw [hd] at heq
      subst heq
      have hszc : sizeOf (MdNode.text v :: t) = 1 + (1 + sizeOf v) + sizeOf t := by simp
      have hst : sizeOf t ≤ n := by omega
      have hnext : (pre ++ MdNode.text v :: t) = (pre ++ [MdNode.text v]) ++ t := by simp
      have hlen1 : pre.length + 1 = (pre ++ [MdNode.text v]).length := by simp
      split
      · next hb =>
        subst hb
        rw [hnext, hlen1, ih t hst true (pre ++ [MdNode.text v])]
        rw [transformList_cons, transformNode_text_inLink, listTexts_cons, nodeTexts_text]
        simp
      · next hb =>
        have hbf : b = false := by
          cases b
          · rfl
          · exact absurd rfl hb
        subst hbf
        split
        · next hv =>
          rw [hnext, hlen1, ih t hst false (pre ++ [MdNode.text v])]
          rw [transformList_cons, transformNode_text_none hv false, listTexts_cons,
            nodeTexts_text]
          simp
        · next ns hv =>
          have htake : (pre ++ MdNode.text v :: t).take pre.length = pre :=
            List.take_left pre _
          have hdrop : (pre ++ MdNode.text v :: t).drop (pre.length + 1) = t := by
            rw [hnext]
            exact List.drop_left' (by simp)
          rw [htake, hdrop]
          have hsplice : pre ++ ns ++ t = (pre ++ ns) ++ t := by simp
          have hlen2 : pre.length + ns.length = (pre ++ ns).length := by simp
          rw [hsplice, hlen2, ih t hst false (pre ++ ns)]
          rw [transformList_cons, transformNode_text_some hv, listTexts_cons,
            nodeTexts_text]
          simp
    · next u sub t heq =>
      rw [hd] at heq
      subst heq
      have hszc : sizeOf (MdNode.link u sub :: t) =
          1 + (1 + sizeOf u + sizeOf sub) + sizeOf t := by simp
      have hu : 1 ≤ sizeOf u := by cases u <;> simp <;> omega
      have hst : sizeOf t ≤ n := by omega
      have hss : sizeOf sub ≤ n := by omega
      have hinner := ih sub hss true []
      simp only [List.nil_append, List.length_nil] at hinner
      rw [hinner]
      have hset : (pre ++ MdNode.link u sub :: t).set pre.length
          (MdNode.link u (transformList true sub)) =
          pre ++ MdNode.link u (transformList true sub) :: t :=
        set_append_cons pre _ _ t
      rw [hset]
      have hnext : pre ++ MdNode.link u (transformList true sub) :: t =
          (pre ++ [MdNode.link u (transformList true sub)]) ++ t := by simp
      have hlen1 : pre.length + 1 =
          (pre ++ [MdNode.link u (transformList true sub)]).length := by simp
      rw [hnext, hlen1, ih t hst b (pre ++ [MdNode.link u (transformList true sub)])]
      rw [transformList_cons, transformNode_link, listTexts_cons, nodeTexts_link]
      simp
    · next k sub t heq =>
      rw [hd] at heq
      subst heq
      have hszc : sizeOf (MdNode.other k sub :: t) =
          1 + (1 + sizeOf k + sizeOf sub) + sizeOf t := by simp
      have hk : 1 ≤ sizeOf k := by cases k <;> simp <;> omega
      have hst : sizeOf t ≤ n := by omega
      have hss : sizeOf sub ≤ n := by omega
      have hinner := ih sub hss false []
      simp only [List.nil_append, List.length_nil] at hinner
      rw [hinner]
      have hset : (pre ++ MdNode.other k sub :: t).set pre.length
          (MdNode.other k (transformList false sub)) =
          pre ++ MdNode.other k (transformList false sub) :: t :=
        set_append_cons pre _ _ t
      rw [hset]
      have hnext : pre ++ MdNode.other k (transformList false sub) :: t =
          (pre ++ [MdNode.other k (transformList false sub)]) ++ t := by simp
      have hlen1 : pre.length + 1 =
          (pre ++ [MdNode.other k (transformList false sub)]).length := by simp
      rw [hnext, hlen1, ih t hst b (pre ++ [MdNode.other k (transformList false sub)])]
      rw [transformList_cons, transformNode_other, listTexts_cons, nodeTexts_other]
      simp

/-- The plugin applied at the root, operationally, with the visit trace. -/
def visitTree : MdNode → MdNode × List (List Char)
  | .text v => (.text v, [v])
  | .link u cs => (.link u (visitChildren true cs 0).1, (visitChildren true cs 0).2)
  | .other k cs => (.other k (visitChildren false cs 0).1, (visitChildren false cs 0).2)

theorem transformTree_text (v : List Char) : transformTree (.text v) = .text v := by
  rw [transformTree]

theorem transformTree_link (u : List Char) (cs : List MdNode) :
    transformTree (.link u cs) = .link u (transformList true cs) := by
  rw [transformTree]

theorem transformTree_other (k : String) (cs : List MdNode) :
    transformTree (.other k cs) = .other k (transformList false cs) := by
  rw [transformTree]

theorem visitChildren_eq (b : Bool) (cs : List MdNode) :
    visitChildren b cs 0 = (transformList b cs, listTexts cs) := by
  have h := visitChildren_spec (sizeOf cs) cs le_rfl b []
  simpa using h

/-- Whole-tree form of the operational/denotational equivalence. -/
theorem visitTree_spec (t : MdNode) :
    visitTree t = (transformTree t, nodeTexts t) := by
  match t with
  | .text v => rw [visitTree, transformTree_text, nodeTexts_text]
  | .link u cs => rw [visitTree, visitChildren_eq, transformTree_link, nodeTexts_link]
  | .other k cs => rw [visitTree, visitChildren_eq, transformTree_other, nodeTexts_other]

/-! ### Spec-side rendering of the scan pieces -/

/-- Rendering of the scan pieces as the spec describes the replacement
sequence: per match a (possibly absent) gap text node and a link node, then
a (possibly absent) trailing text node. -/
def renderPieces (ps : List (List Char × List Char)) (tr : List Char) : List MdNode :=
  (ps.map (fun p => (if p.1.isEmpty then [] else [MdNode.text p.1]) ++ [citeNode p.2])).flatten ++
    (if tr.isEmpty then [] else [MdNode.text tr])

theorem buildNodes_eq_render (s : List Char) :
    buildNodes s = renderPieces (citeScan s).1 (citeScan s).2 := by
  induction s using scanInduction with
  | hnone s hf =>
    rw [buildNodes_none hf, citeScan_none hf, renderPieces]
    simp
  | hsome s i ds hf ih =>
    obtain ⟨heq, hne, hdig, hlen, hle⟩ := findCitation_spec hf
    rw [buildNodes_some hf, citeScan_some hf, ih, renderPieces, renderPieces]
    have hif : (if i = 0 then ([] : List MdNode) else [MdNode.text (s.take i)]) =
        if (s.take i).isEmpty then [] else [MdNode.text (s.take i)] := by
      by_cases hi : i = 0
      · subst hi
        simp
      · rw [if_neg hi, if_neg]
        rw [List.isEmpty_iff]
        intro hcontr
        rw [hcontr] at hlen
        simp at hlen
        omega
    rw [hif]
    simp

/-! ### The renderer's independent reference scan

`extractReferences` (results.tsx) runs the same global regex over the source
text, collects the captured digit strings into a `Set` (insertion order,
first occurrence wins) and sorts them numerically (`parseInt` comparator,
stable sort). -/

/-- The digit strings captured by the regex loop, in match order. -/
def refScan (s : List Char) : List (List Char) :=
  match h : findCitation s with
  | none => []
  | some (i, ds) => ds :: refScan (s.drop (i + ds.length + 2))
termination_by s.length
decreasing_by
  obtain ⟨_, hne, _, _, hle⟩ := findCitation_spec h
  have : 1 ≤ ds.length := List.length_pos.mpr hne
  simp only [List.length_drop]
  omega

theorem refScan_none {s : List Char} (h : findCitation s = none) :
    refScan s = [] := by
  rw [refScan, h]

theorem refScan_some {s : List Char} {i : Nat} {ds : List Char}
    (h : findCitation s = some (i, ds)) :
    refScan s = ds :: refScan (s.drop (i + ds.length + 2)) := by
  rw [refScan, h]

/-- JavaScript `Set.prototype.add`: keep the first occurrence, append new
elements at the end. -/
def setAdd (acc : List (List Char)) (x : List Char) : List (List Char) :=
  if x ∈ acc then acc else acc ++ [x]

/-- Order-preserving deduplication, as iterating `Set.add` over a list. -/
def setOfList (l : List (List Char)) : List (List Char) := l.foldl setAdd []

/-- JavaScript `parseInt` on a digit string (exact; the source's comparator
is used only for ordering, which the set-membership claims ignore). -/
def digitsVal (ds : List Char) : Nat :=
  ds.foldl (fun n c => 10 * n + (c.toNat - 48)) 0

/-- The renderer's `extractReferences`: scan, deduplicate, numeric sort. -/
def extractReferences (s : List Char) : List (List Char) :=
  (setOfList (refScan s)).mergeSort (fun a b => digitsVal a ≤ digitsVal b)

/-- The anchor id the renderer gives each reference target. -/
def anchorId (n : List Char) : List Char := 'r' :: 'e' :: 'f' :: '-' :: n

theorem mem_foldl_setAdd (x : List Char) :
    ∀ (l : List (List Char)) (acc : List (List Char)),
      x ∈ l.foldl setAdd acc ↔ x ∈ acc ∨ x ∈ l := by
  intro l
  induction l with
  | nil => intro acc; simp
  | cons y ys ih =>
    intro acc
    rw [List.foldl_cons, ih]
    unfold setAdd
    by_cases hy : y ∈ acc
    · rw [if_pos hy]
      constructor
      · rintro (h1 | h2)
        · exact Or.inl h1
        · exact Or.inr (List.mem_cons_of_mem y h2)
      · rintro (h1 | h2)
        · exact Or.inl h1
        · rcases List.mem_cons.mp h2 with h3 | h4
          · subst h3; exact Or.inl hy
          · exact Or.inr h4
    · rw [if_neg hy]
      constructor
      · rintro (h1 | h2)
        · rcases List.mem_append.mp h1 with h3 | h4
          · exact Or.inl h3
          · simp at h4
            subst h4
            exact Or.inr (List.mem_cons_self _ _)
        · exact Or.inr (List.mem_cons_of_mem y h2)
      · rintro (h1 | h2)
        · exact Or.inl (List.mem_append.mpr (Or.inl h1))
        · rcases List.mem_cons.mp h2 with h3 | h4
          · subst h3
            exact Or.inl (List.mem_append.mpr (Or.inr (by simp)))
          · exact Or.inr h4

theorem mem_extractReferences {s : List Char} {x : List Char} :
    x ∈ extractReferences s ↔ x ∈ refScan s := by
  unfold extractReferences setOfList
  rw [List.mem_mergeSort, mem_foldl_setAdd]
  simp

/-- The digit strings of the scan pieces are exactly the renderer scan. -/
theorem refScan_eq_citeScan (s : List Char) :
    refScan s = (citeScan s).1.map Prod.snd := by
  induction s using scanInduction with
  | hnone s hf =>
    rw [refScan_none hf, citeScan_none hf]
    simp
  | hsome s i ds hf ih => rw [refScan_some hf, citeScan_some hf, List.map_cons, ih]

/-- Urls of the link nodes in a node list, left to right. -/
def linkTargets (ns : List MdNode) : List (List Char) :=
  ns.filterMap (fun n => match n with
    | .link u _ => some u
    | _ => none)

theorem linkTargets_append (xs ys : List MdNode) :
    linkTargets (xs ++ ys) = linkTargets xs ++ linkTargets ys := by
  unfold linkTargets
  rw [List.filterMap_append]

/-- The links emitted for one text value carry exactly the scanned digit
strings, in match order. -/
theorem linkTargets_buildNodes (s : List Char) :
    linkTargets (buildNodes s) = (refScan s).map refUrl := by
  induction s using scanInduction with
  | hnone s hf =>
    rw [buildNodes_none hf, refScan_none hf]
    by_cases hs : s.isEmpty
    · rw [if_pos hs]; rfl
    · rw [if_neg hs]; rfl
  | hsome s i ds hf ih =>
    rw [buildNodes_some hf, refScan_some hf, linkTargets_append, List.map_cons]
    have hgap : linkTargets (if i = 0 then [] else [MdNode.text (s.take i)]) = [] := by
      by_cases hi : i = 0
      · rw [if_pos hi]; rfl
      · rw [if_neg hi]; rfl
    rw [hgap]
    show [] ++ linkTargets (citeNode ds :: buildNodes _) = refUrl ds :: _
    rw [List.nil_append, citeNode]
    show refUrl ds :: linkTargets (buildNodes _) = _
    rw [ih]

theorem refUrl_injective {n m : List Char} (h : refUrl n = refUrl m) : n = m := by
  unfold refUrl at h
  simpa using h

/-! ### The visitor's guard (error handling)

Lines 12–21 of the plugin: the visitor receives `(node, index, parent)` from
the traversal; if the parent is missing, has no `children` property, or the
index is not a number, it returns without touching the tree.  A link parent
yields `SKIP`.  A missing `node.value` flows into `regex.exec`, which
stringifies `undefined` to the 9-character string `"undefined"` — which
contains no bracket citation, so the loop never fires and no change is
made. -/

inductive VisitResult : Type
  | noChange : VisitResult
  | skip : VisitResult
  | splice : List MdNode → Nat → VisitResult
deriving Repr

/-- JavaScript `'children' in parent` for an mdast node. -/
def hasChildren : MdNode → Bool
  | .text _ => false
  | .link _ _ => true
  | .other _ _ => true

def isLinkNode : MdNode → Bool
  | .link _ _ => true
  | _ => false

/-- String coercion of JavaScript `undefined`. -/
def jsUndefined : List Char :=
  'u' :: 'n' :: 'd' :: 'e' :: 'f' :: 'i' :: 'n' :: 'e' :: 'd' :: []

/-- One visitor invocation: the value of the text node (if present), the
parent (if any) and the index (if numeric), returning what the visitor asks
the traversal to do.  Total — no failure outcome exists. -/
def visitor (v : Option (List Char)) (p : Option MdNode) (i : Option Nat) :
    VisitResult :=
  match p, i with
  | some parent, some idx =>
    if hasChildren parent = false then .noChange
    else if isLinkNode parent then .skip
    else
      match transformValue (v.getD jsUndefined) with
      | none => .noChange
      | some ns => .splice ns (idx + ns.length)
  | _, _ => .noChange

/-- A node the transform may insert: a plain text node, or a link node with
a single text child. -/
def insertedOk : MdNode → Bool
  | .text _ => true
  | .link _ [.text _] => true
  | _ => false

theorem insertedOk_citeNode (ds : List Char) : insertedOk (citeNode ds) = true := by
  rw [citeNode, insertedOk]

theorem buildNodes_all_insertedOk (s : List Char) :
    (buildNodes s).all insertedOk = true := by
  induction s using scanInduction with
  | hnone s hf =>
    rw [buildNodes_none hf]
    by_cases hs : s.isEmpty
    · rw [if_pos hs]; rfl
    · rw [if_neg hs]; rfl
  | hsome s i ds hf ih =>
    rw [buildNodes_some hf, List.all_append, List.all_cons, insertedOk_citeNode, ih]
    by_cases hi : i = 0
    · rw [if_pos hi]; rfl
    · rw [if_neg hi]; rfl

/-! ## The claims -/

/-- C1.  For a text node under a non-link parent: scanning its value
left-to-right for non-overlapping `[digits]` matches decomposes the value
into gaps, matches and a trailing remainder (gaps and remainder containing
no match, digit runs non-empty, digits verbatim); when at least one match
exists the node is replaced by exactly the rendered sequence — a text node
per non-empty gap, a link node per match with url `#ref-<digits>` and single
text child `[<digits>]`, a text node for a non-empty trailing remainder —
and with no match the node stays as it is. -/
theorem C1_replacement_structure (v : List Char) :
    (v = (((citeScan v).1.map (fun p => p.1 ++ '[' :: (p.2 ++ [']']))).flatten ++
        (citeScan v).2) ∧
      (∀ p ∈ (citeScan v).1, p.2 ≠ [] ∧ p.2.all isDig = true ∧ ¬ HasCite p.1) ∧
      ¬ HasCite (citeScan v).2) ∧
    (HasCite v →
      transformNode false (.text v) = renderPieces (citeScan v).1 (citeScan v).2 ∧
      (citeScan v).1 ≠ []) ∧
    (¬ HasCite v → transformNode false (.text v) = [.text v]) := by
  refine ⟨citeScan_spec v, ?_, ?_⟩
  · intro hc
    rw [hasCite_iff_findCitation] at hc
    match hf : findCitation v with
    | some (i, ds) =>
      constructor
      · rw [transformNode_text_some (transformValue_some hf), buildNodes_eq_render]
      · rw [citeScan_some hf]
        simp
    | none => rw [hf] at hc; simp at hc
  · intro hc
    rw [hasCite_iff_findCitation] at hc
    have hf : findCitation v = none := Option.not_isSome_iff_eq_none.mp hc
    exact transformNode_text_none (transformValue_none hf) false

/-- Witness for C1 at `v = "x[007]"`: one match with digits `007` kept
verbatim (no leading-zero normalization). -/
theorem C1_witness :
    HasCite ('x' :: '[' :: '0' :: '0' :: '7' :: ']' :: []) ∧
    transformNode false (.text ('x' :: '[' :: '0' :: '0' :: '7' :: ']' :: [])) =
      renderPieces (citeScan ('x' :: '[' :: '0' :: '0' :: '7' :: ']' :: [])).1
        (citeScan ('x' :: '[' :: '0' :: '0' :: '7' :: ']' :: [])).2 := by
  have hc : HasCite ('x' :: '[' :: '0' :: '0' :: '7' :: ']' :: []) := by
    rw [hasCite_iff_findCitation]
    decide
  exact ⟨hc, ((C1_replacement_structure _).2.1 hc).1⟩

/-- C2.  Whenever the transform rewrites a text node, the concatenated
recursive text content of the replacement sequence is exactly the original
value. -/
theorem C2_roundtrip (v : List Char) (ns : List MdNode)
    (h : transformValue v = some ns) : textContentList ns = v := by
  rw [transformValue_some_eq h]
  exact textContent_buildNodes v

/-- Witness for C2 at `v = "a[1]b"`. -/
theorem C2_witness :
    transformValue ('a' :: '[' :: '1' :: ']' :: 'b' :: []) =
      some (buildNodes ('a' :: '[' :: '1' :: ']' :: 'b' :: [])) ∧
    textContentList (buildNodes ('a' :: '[' :: '1' :: ']' :: 'b' :: [])) =
      'a' :: '[' :: '1' :: ']' :: 'b' :: [] := by
  have h : transformValue ('a' :: '[' :: '1' :: ']' :: 'b' :: []) =
      some (buildNodes ('a' :: '[' :: '1' :: ']' :: 'b' :: [])) :=
    transformValue_some (by decide : findCitation ('a' :: '[' :: '1' :: ']' :: 'b' :: []) =
      some (1, ['1']))
  exact ⟨h, C2_roundtrip _ _ h⟩

/-- The spec's transitive-descendant tree: a link containing an emphasis
containing the text `[1]`. -/
def deepLinkTree : MdNode :=
  .other "paragraph" [.link ['u'] [.other "emphasis" [.text ('[' :: '1' :: ']' :: [])]]]

/-- C3, counterexample.  The claim says a text node that is a *transitive*
descendant of a link is never rewritten; but the guard at line 19 only
checks the direct parent, so the text `[1]` inside emphasis inside a link
is rewritten into a nested link, changing the tree. -/
theorem C3_counterexample :
    transformTree deepLinkTree =
      .other "paragraph" [.link ['u'] [.other "emphasis"
        [.link (refUrl ['1']) [.text ('[' :: '1' :: ']' :: [])]]]] ∧
    transformTree deepLinkTree ≠ deepLinkTree := by
  have hval : transformValue ('[' :: '1' :: ']' :: []) = some [citeNode ['1']] := by
    rw [transformValue_some (by decide : findCitation ('[' :: '1' :: ']' :: []) =
      some (0, ['1']))]
    rw [@buildNodes_some ('[' :: '1' :: ']' :: []) 0 ['1'] (by decide)]
    rw [@buildNodes_none (List.drop (0 + List.length ['1'] + 2)
      ('[' :: '1' :: ']' :: [])) (by decide)]
    simp
  have heval : transformTree deepLinkTree =
      .other "paragraph" [.link ['u'] [.other "emphasis"
        [.link (refUrl ['1']) [.text ('[' :: '1' :: ']' :: [])]]]] := by
    rw [deepLinkTree, transformTree_other, transformList_cons, transformList_nil,
      transformNode_link, transformList_cons, transformList_nil, transformNode_other,
      transformList_cons, transformList_nil, transformNode_text_some hval, citeNode]
    simp
  refine ⟨heval, ?_⟩
  rw [heval, deepLinkTree]
  intro hcontr
  simp [refUrl] at hcontr

/-- C3, amended.  A text node whose *direct* parent is a link node is never
split and never rewritten, keeping its place among the link's children;
deeper descendants of a link (behind another container) are not exempt. -/
theorem C3_amended_direct_child_exempt (b : Bool) (u v : List Char)
    (pre post : List MdNode) :
    transformNode b (.link u (pre ++ .text v :: post)) =
      [.link u (transformList true pre ++ .text v :: transformList true post)] := by
  rw [transformNode_link, transformList_append, transformList_cons,
    transformNode_text_inLink]
  simp

/-- C4.  The replacement sequence stands exactly where the original text
node stood among its siblings, and the synthesized links carry the scanned
digit strings in source order. -/
theorem C4_position_and_order (b : Bool) (v : List Char) (pre post : List MdNode) :
    transformList b (pre ++ .text v :: post) =
      transformList b pre ++ transformNode b (.text v) ++ transformList b post ∧
    (∀ ns, transformValue v = some ns →
      linkTargets ns = ((citeScan v).1.map Prod.snd).map refUrl) := by
  constructor
  · rw [transformList_append, transformList_cons]
    simp
  · intro ns h
    rw [transformValue_some_eq h, linkTargets_buildNodes, refScan_eq_citeScan]

/-- Witness for C4 at `v = "[1][2]"` between two untouched siblings. -/
theorem C4_witness :
    transformList false ([MdNode.other "x" []] ++
        .text ('[' :: '1' :: ']' :: '[' :: '2' :: ']' :: []) :: [MdNode.other "y" []]) =
      transformList false [MdNode.other "x" []] ++
        transformNode false (.text ('[' :: '1' :: ']' :: '[' :: '2' :: ']' :: [])) ++
        transformList false [MdNode.other "y" []] ∧
    linkTargets [citeNode ['1'], citeNode ['2']] =
      ((citeScan ('[' :: '1' :: ']' :: '[' :: '2' :: ']' :: [])).1.map Prod.snd).map refUrl := by
  have hb : buildNodes ('[' :: '1' :: ']' :: '[' :: '2' :: ']' :: []) =
      [citeNode ['1'], citeNode ['2']] := by
    rw [@buildNodes_some ('[' :: '1' :: ']' :: '[' :: '2' :: ']' :: []) 0 ['1'] (by decide)]
    rw [@buildNodes_some (List.drop (0 + List.length ['1'] + 2)
      ('[' :: '1' :: ']' :: '[' :: '2' :: ']' :: [])) 0 ['2'] (by decide)]
    rw [@buildNodes_none (List.drop (0 + List.length ['2'] + 2) (List.drop
      (0 + List.length ['1'] + 2) ('[' :: '1' :: ']' :: '[' :: '2' :: ']' :: [])))
      (by decide)]
    simp
  have h : transformValue ('[' :: '1' :: ']' :: '[' :: '2' :: ']' :: []) =
      some [citeNode ['1'], citeNode ['2']] := by
    rw [transformValue_some (by decide : findCitation
      ('[' :: '1' :: ']' :: '[' :: '2' :: ']' :: []) = some (0, ['1'])), hb]
  exact ⟨(C4_position_and_order false _ _ _).1,
    (C4_position_and_order false ('[' :: '1' :: ']' :: '[' :: '2' :: ']' :: []) [] []).2 _ h⟩

/-- C5.  A text node whose value contains no `[digits]` substring is left
byte-identical and keeps its position among its (transformed) siblings. -/
theorem C5_no_cite_no_op (b : Bool) (v : List Char) (pre post : List MdNode)
    (h : ¬ HasCite v) :
    transformNode b (.text v) = [.text v] ∧
    transformList b (pre ++ .text v :: post) =
      transformList b pre ++ .text v :: transformList b post := by
  rw [hasCite_iff_findCitation] at h
  have hf : findCitation v = none := Option.not_isSome_iff_eq_none.mp h
  have h1 := transformNode_text_none (transformValue_none hf) b
  refine ⟨h1, ?_⟩
  rw [transformList_append, transformList_cons, h1]
  simp

/-- Witness for C5 at `v = "[a] and []"` (non-digit and empty brackets). -/
theorem C5_witness :
    ¬ HasCite ('[' :: 'a' :: ']' :: ' ' :: '[' :: ']' :: []) ∧
    transformNode false (.text ('[' :: 'a' :: ']' :: ' ' :: '[' :: ']' :: [])) =
      [.text ('[' :: 'a' :: ']' :: ' ' :: '[' :: ']' :: [])] := by
  have h : ¬ HasCite ('[' :: 'a' :: ']' :: ' ' :: '[' :: ']' :: []) := by
    rw [hasCite_iff_findCitation]
    decide
  exact ⟨h, (C5_no_cite_no_op false _ [] [] h).1⟩

/-- C6.  The operational visit loop — live child array, index cursor,
in-place splice, cursor jump past insertions — produces the denotational
transform, and its visit trace is exactly the preorder list of the
*original* tree's text-node values: every original text node is visited
exactly once, newly inserted nodes (including the text children of
synthesized links) are never re-scanned, and the nodes following a replaced
one are still visited in order. -/
theorem C6_single_pass_traversal :
    (∀ (b : Bool) (cs : List MdNode),
      visitChildren b cs 0 = (transformList b cs, listTexts cs)) ∧
    ∀ t : MdNode, visitTree t = (transformTree t, nodeTexts t) := by
  exact ⟨visitChildren_eq, visitTree_spec⟩

/-- C7.  The transform is idempotent on every tree. -/
theorem C7_idempotent (t : MdNode) :
    transformTree (transformTree t) = transformTree t := by
  match t with
  | .text v => rw [transformTree_text, transformTree_text]
  | .link u cs =>
    rw [transformTree_link, transformTree_link, transformList_idem]
  | .other k cs =>
    rw [transformTree_other, transformTree_other, transformList_idem]

/-- C8.  The visitor cannot fault: with no parent or no numeric index it
reports no change (the guard at lines 13–16), and a missing `value`
stringifies to `"undefined"`, which contains no citation, so at most a
`SKIP` results and the tree is untouched. -/
theorem C8_fail_open :
    (∀ v i, visitor v none i = .noChange) ∧
    (∀ v p, visitor v p none = .noChange) ∧
    (∀ p i, visitor none (some p) (some i) = .noChange ∨
      visitor none (some p) (some i) = .skip) := by
  refine ⟨?_, ?_, ?_⟩
  · intro v i
    cases i
    · rfl
    · rfl
  · intro v p
    cases p
    · rfl
    · rfl
  · intro p i
    have hu : transformValue jsUndefined = none := transformValue_none (by decide)
    match p with
    | .text w => left; rfl
    | .link u cs => right; rfl
    | .other k cs =>
      left
      simp [visitor, hasChildren, isLinkNode, hu]

/-- C9.  The digit strings the Citation Linker links to (targets
`#ref-<n>`) on a source string are exactly the reference numbers the
renderer's independent `extractReferences` scan derives from the same
string — for each of which the renderer emits an anchor with id `ref-<n>` —
and every emitted target is `#` followed by such an anchor id. -/
theorem C9_linker_renderer_agreement (s n : List Char) :
    (refUrl n ∈ linkTargets (transformNode false (.text s)) ↔
      n ∈ extractReferences s) ∧
    (∀ u, u ∈ linkTargets (transformNode false (.text s)) →
      ∃ m, u = '#' :: anchorId m ∧ m ∈ extractReferences s) := by
  have key : linkTargets (transformNode false (.text s)) = (refScan s).map refUrl := by
    match hf : findCitation s with
    | none =>
      rw [transformNode_text_none (transformValue_none hf) false, refScan_none hf]
      rfl
    | some (i, ds) =>
      rw [transformNode_text_some (transformValue_some hf), linkTargets_buildNodes]
  rw [key]
  constructor
  · rw [mem_extractReferences]
    constructor
    · intro hm
      obtain ⟨m, hm1, hm2⟩ := List.mem_map.mp hm
      rw [refUrl_injective hm2] at hm1
      exact hm1
    · intro hm
      exact List.mem_map.mpr ⟨n, hm, rfl⟩
  · intro u hu
    obtain ⟨m, hm1, hm2⟩ := List.mem_map.mp hu
    exact ⟨m, by rw [← hm2]; rfl, mem_extractReferences.mpr hm1⟩

/-- Witness for C9 at `s = "[7]"`, `n = "7"`, `u = "#ref-7"`. -/
theorem C9_witness :
    (refUrl ['7'] ∈ linkTargets (transformNode false
        (.text ('[' :: '7' :: ']' :: []))) ↔
      ['7'] ∈ extractReferences ('[' :: '7' :: ']' :: [])) ∧
    (∃ m, refUrl ['7'] = '#' :: anchorId m ∧
      m ∈ extractReferences ('[' :: '7' :: ']' :: [])) := by
  have hmem : refUrl ['7'] ∈ linkTargets (transformNode false
      (.text ('[' :: '7' :: ']' :: []))) := by
    rw [transformNode_text_some (transformValue_some
      (by decide : findCitation ('[' :: '7' :: ']' :: []) = some (0, ['7'])))]
    rw [linkTargets_buildNodes, refScan_some
      (by decide : findCitation ('[' :: '7' :: ']' :: []) = some (0, ['7']))]
    rw [refScan_none (by decide)]
    simp
  exact ⟨(C9_linker_renderer_agreement ('[' :: '7' :: ']' :: []) ['7']).1,
    (C9_linker_renderer_agreement ('[' :: '7' :: ']' :: []) ['7']).2 _ hmem⟩

/-- C10.  Frame effect: each original child is replaced, in place, by a
sequence that depends only on it — a non-text node keeps its kind and fields
(url, container kind) with only its children transformed; a text node is
either kept verbatim or (non-link parent only) replaced by inserted nodes
that are all plain text nodes or link nodes with a single text child.
Siblings are neither deleted nor reordered. -/
theorem C10_frame_effect (b : Bool) (n : MdNode) (pre post : List MdNode) :
    transformList b (pre ++ n :: post) =
      transformList b pre ++ transformNode b n ++ transformList b post ∧
    (match n with
     | .text v => transformNode b n = [.text v] ∨
         (b = false ∧ (transformNode b n).all insertedOk = true)
     | .link u cs => transformNode b n = [.link u (transformList true cs)]
     | .other k cs => transformNode b n = [.other k (transformList false cs)]) := by
  constructor
  · rw [transformList_append, transformList_cons]
    simp
  · match n with
    | .text v =>
      cases b
      · match hv : transformValue v with
        | none => exact Or.inl (transformNode_text_none hv false)
        | some ns =>
          right
          refine ⟨rfl, ?_⟩
          rw [transformNode_text_some hv, transformValue_some_eq hv]
          exact buildNodes_all_insertedOk v
      · exact Or.inl (transformNode_text_inLink v)
    | .link u cs => exact transformNode_link b u cs
    | .other k cs => exact transformNode_other b k cs

end CitationLinker
